import Mathlib

/-
Verification development for the QuUI image-processing core
(src/utils/image.cpp, src/utils/image.hpp, src/core/math_types.hpp).

Modelling conventions:
- C++ `float` arithmetic is idealised as exact rational (ℚ) arithmetic;
  the transcendental pieces of the Gaussian kernel live in ℝ.
- `std::vector<uint8_t> data_` is modelled as a total function `ℕ → ℕ`
  from byte index to byte value; indices at or beyond the logical size
  `width * height * bytesPerPixel` always hold 0.
- `static_cast<uint8_t>(f)` on an in-range float is truncation toward zero.
-/

namespace QuUI

/-- Pixel formats of the image buffer, from `Image::Format` in image.hpp. -/
inductive Format where
  | RGB
  | RGBA
  | BGR
  | BGRA
  | Grayscale
deriving DecidableEq

/-- Bytes per pixel for each format, from `Image::getBytesPerPixel`. -/
def bytesPerPixel : Format → ℕ
  | Format.RGB => 3
  | Format.RGBA => 4
  | Format.BGR => 3
  | Format.BGRA => 4
  | Format.Grayscale => 1

/-- The color exchange type (`struct Color` in math_types.hpp): four float
channels `r g b a`, default-constructed to `(1,1,1,1)` (fully-opaque white
in the float convention). Floats are idealised as rationals. -/
structure Color where
  r : ℚ
  g : ℚ
  b : ℚ
  a : ℚ
deriving DecidableEq

/-- The default-constructed `Color()`: fully-opaque white `(1,1,1,1)`. -/
def Color.white : Color := ⟨1, 1, 1, 1⟩

/-- 2-D float vector (`struct Vector2f` in math_types.hpp). -/
structure Vector2f where
  x : ℚ
  y : ℚ
deriving DecidableEq

/-- Rectangle with origin and size, as used for `TextureAtlas::Region::bounds`
(all quantities involved are pixel counts, hence ℕ). -/
structure Rect where
  x : ℕ
  y : ℕ
  width : ℕ
  height : ℕ
deriving DecidableEq

/-- A named atlas region (`TextureAtlas::Region`). -/
structure Region where
  bounds : Rect
  name : String
deriving DecidableEq

/-- Truncation toward zero, modelling C++ `static_cast<int>` on a float. -/
def truncQ (q : ℚ) : ℤ := if 0 ≤ q then ⌊q⌋ else ⌈q⌉

/-- Conversion of a float channel value to a stored byte
(`static_cast<uint8_t>`); in-range values truncate toward zero. -/
def floatToByte (q : ℚ) : ℕ := (truncQ q).toNat % 256

/-- Luminance `0.299 r + 0.587 g + 0.114 b` as computed in
`Image::setPixelUnsafe` for the Grayscale case. -/
def lum (c : Color) : ℚ := 299/1000 * c.r + 587/1000 * c.g + 114/1000 * c.b

/-- Point update of the byte store (one `data_[i] = v;` assignment). -/
def updByte (d : ℕ → ℕ) (i v : ℕ) : ℕ → ℕ := fun j => if j = i then v else d j

/-- The pixel buffer (`class Image`): width, height, format and byte store. -/
structure Image where
  width : ℕ
  height : ℕ
  format : Format
  data : ℕ → ℕ

/-- The `Image(width, height, format)` constructor: fresh zero-filled buffer. -/
def Image.mkBlank (w h : ℕ) (fmt : Format) : Image := ⟨w, h, fmt, fun _ => 0⟩

/-- `Image::create`: sets dimensions and format, then calls
`data_.resize(width * height * getBytesPerPixel())`. `std::vector::resize`
keeps the existing byte prefix and zero-fills only newly added bytes; in
particular, resizing to the same size leaves every byte unchanged. -/
def Image.create (img : Image) (w h : ℕ) (fmt : Format) : Image :=
  ⟨w, h, fmt, fun i =>
    if i < min (img.width * img.height * bytesPerPixel img.format)
               (w * h * bytesPerPixel fmt)
    then img.data i else 0⟩

/-- `Image::getPixelIndex`: `(y * width_ + x) * getBytesPerPixel()`. -/
def Image.getPixelIndex (img : Image) (x y : ℕ) : ℕ :=
  (y * img.width + x) * bytesPerPixel img.format

/-- `Image::setPixelUnsafe`: format-aware encoding of a color into the bytes
at the pixel's index; writes happen in the source order r, g, b(, a)
(swapped for the BGR orders, luminance only for Grayscale). -/
def Image.setPixelUnsafe (img : Image) (x y : ℕ) (c : Color) : Image :=
  let i := img.getPixelIndex x y
  match img.format with
  | Format.RGB =>
      let d := updByte (updByte (updByte img.data i (floatToByte c.r)) (i+1) (floatToByte c.g)) (i+2) (floatToByte c.b)
      { img with data := d }
  | Format.RGBA =>
      let d := updByte (updByte (updByte (updByte img.data i (floatToByte c.r)) (i+1) (floatToByte c.g)) (i+2) (floatToByte c.b)) (i+3) (floatToByte c.a)
      { img with data := d }
  | Format.BGR =>
      let d := updByte (updByte (updByte img.data i (floatToByte c.b)) (i+1) (floatToByte c.g)) (i+2) (floatToByte c.r)
      { img with data := d }
  | Format.BGRA =>
      let d := updByte (updByte (updByte (updByte img.data i (floatToByte c.b)) (i+1) (floatToByte c.g)) (i+2) (floatToByte c.r)) (i+3) (floatToByte c.a)
      { img with data := d }
  | Format.Grayscale =>
      { img with data := updByte img.data i (floatToByte (lum c)) }

/-- `Image::getPixelUnsafe`: format-aware decoding of the bytes at the
pixel's index back into a `Color`; the three-channel and Grayscale formats
leave alpha at the `Color` constructor default 1. -/
def Image.getPixelUnsafe (img : Image) (x y : ℕ) : Color :=
  let i := img.getPixelIndex x y
  match img.format with
  | Format.RGB => ⟨img.data i, img.data (i+1), img.data (i+2), 1⟩
  | Format.RGBA => ⟨img.data i, img.data (i+1), img.data (i+2), img.data (i+3)⟩
  | Format.BGR => ⟨img.data (i+2), img.data (i+1), img.data i, 1⟩
  | Format.BGRA => ⟨img.data (i+2), img.data (i+1), img.data i, img.data (i+3)⟩
  | Format.Grayscale => ⟨img.data i, img.data i, img.data i, 1⟩

/-- `Image::setPixel`: bounds-checked write, silently ignored out of range. -/
def Image.setPixel (img : Image) (x y : ℕ) (c : Color) : Image :=
  if x < img.width ∧ y < img.height then img.setPixelUnsafe x y c else img

/-- `Image::getPixel`: bounds-checked read, default `Color()` out of range. -/
def Image.getPixel (img : Image) (x y : ℕ) : Color :=
  if x < img.width ∧ y < img.height then img.getPixelUnsafe x y else Color.white

/-- A rational that is an exact byte value: an integer in `[0, 255]`. -/
def isByte (q : ℚ) : Prop := q.den = 1 ∧ 0 ≤ q.num ∧ q.num ≤ 255

instance (q : ℚ) : Decidable (isByte q) := by unfold isByte; infer_instance

/-- A color all of whose channels are exact byte values. -/
def isByteColor (c : Color) : Prop :=
  isByte c.r ∧ isByte c.g ∧ isByte c.b ∧ isByte c.a

instance (c : Color) : Decidable (isByteColor c) := by
  unfold isByteColor; infer_instance

/-- What a stored-and-reloaded color looks like for an RGBA buffer: each
channel passes through the byte conversion. -/
def convRGBA (c : Color) : Color :=
  ⟨floatToByte c.r, floatToByte c.g, floatToByte c.b, floatToByte c.a⟩

/-- What a stored-and-reloaded color looks like for a Grayscale buffer:
the truncated luminance byte in all three color channels, alpha 1. -/
def convGray (c : Color) : Color :=
  ⟨floatToByte (lum c), floatToByte (lum c), floatToByte (lum c), 1⟩

/-- The coordinates visited by a doubly nested pixel loop
`for y in [ylo,yhi) for x in [xlo,xhi)`, in source iteration order. -/
def gridCoords (xlo xhi ylo yhi : ℕ) : List (ℕ × ℕ) :=
  (List.range' ylo (yhi - ylo)).flatMap
    (fun y => (List.range' xlo (xhi - xlo)).map (fun x => (x, y)))

theorem mem_gridCoords {xlo xhi ylo yhi x y : ℕ} :
    (x, y) ∈ gridCoords xlo xhi ylo yhi ↔
      (xlo ≤ x ∧ x < xhi) ∧ (ylo ≤ y ∧ y < yhi) := by
  simp only [gridCoords, List.mem_flatMap, List.mem_map, List.mem_range'_1]
  constructor
  · rintro ⟨a, ⟨h1, h2⟩, b, ⟨h3, h4⟩, hEq⟩
    cases hEq
    omega
  · rintro ⟨⟨h1, h2⟩, ⟨h3, h4⟩⟩
    exact ⟨y, ⟨h3, by omega⟩, x, ⟨h1, by omega⟩, rfl⟩

theorem gridCoords_nodup (xlo xhi ylo yhi : ℕ) :
    (gridCoords xlo xhi ylo yhi).Nodup := by
  unfold gridCoords
  rw [List.nodup_flatMap]
  constructor
  · intro y _
    exact (List.nodup_range' ..).map (fun a b h => by simpa using congrArg Prod.fst h)
  · refine (List.nodup_range' ..).imp ?_
    intro a b hab p hpa hpb
    simp only [List.mem_map] at hpa hpb
    obtain ⟨xa, _, rfl⟩ := hpa
    obtain ⟨xb, _, hEq⟩ := hpb
    exact hab (by cases hEq; rfl)

/-- A pixel-loop skeleton: walk a coordinate list and, wherever the
per-pixel condition holds, store the per-pixel color with `setPixel`.
`Image::fillTriangle` and the two blur passes are loops of this shape. -/
def setPixelFold (col : ℕ × ℕ → Color) (cond : ℕ × ℕ → Bool)
    (l : List (ℕ × ℕ)) (im : Image) : Image :=
  l.foldl (fun acc xy => if cond xy then acc.setPixel xy.1 xy.2 (col xy) else acc) im

theorem updByte_same (d : ℕ → ℕ) (i v : ℕ) : updByte d i v i = v := if_pos rfl

theorem updByte_ne {i j : ℕ} (h : j ≠ i) (d : ℕ → ℕ) (v : ℕ) :
    updByte d i v j = d j := if_neg h

@[simp] theorem Image.setPixelUnsafe_width (img : Image) (x y : ℕ) (c : Color) :
    (img.setPixelUnsafe x y c).width = img.width := by
  rcases img with ⟨w, h, fmt, d⟩; cases fmt <;> rfl

@[simp] theorem Image.setPixelUnsafe_height (img : Image) (x y : ℕ) (c : Color) :
    (img.setPixelUnsafe x y c).height = img.height := by
  rcases img with ⟨w, h, fmt, d⟩; cases fmt <;> rfl

@[simp] theorem Image.setPixelUnsafe_format (img : Image) (x y : ℕ) (c : Color) :
    (img.setPixelUnsafe x y c).format = img.format := by
  rcases img with ⟨w, h, fmt, d⟩; cases fmt <;> rfl

@[simp] theorem Image.setPixel_width (img : Image) (x y : ℕ) (c : Color) :
    (img.setPixel x y c).width = img.width := by
  unfold Image.setPixel; split <;> simp

@[simp] theorem Image.setPixel_height (img : Image) (x y : ℕ) (c : Color) :
    (img.setPixel x y c).height = img.height := by
  unfold Image.setPixel; split <;> simp

@[simp] theorem Image.setPixel_format (img : Image) (x y : ℕ) (c : Color) :
    (img.setPixel x y c).format = img.format := by
  unfold Image.setPixel; split <;> simp

@[simp] theorem setPixelFold_width (col : ℕ × ℕ → Color) (cond : ℕ × ℕ → Bool)
    (l : List (ℕ × ℕ)) (im : Image) :
    (setPixelFold col cond l im).width = im.width := by
  induction l generalizing im with
  | nil => rfl
  | cons hd tl ih =>
      show (setPixelFold col cond tl _).width = _
      rw [ih]; dsimp only; split <;> simp

@[simp] theorem setPixelFold_height (col : ℕ × ℕ → Color) (cond : ℕ × ℕ → Bool)
    (l : List (ℕ × ℕ)) (im : Image) :
    (setPixelFold col cond l im).height = im.height := by
  induction l generalizing im with
  | nil => rfl
  | cons hd tl ih =>
      show (setPixelFold col cond tl _).height = _
      rw [ih]; dsimp only; split <;> simp

@[simp] theorem setPixelFold_format (col : ℕ × ℕ → Color) (cond : ℕ × ℕ → Bool)
    (l : List (ℕ × ℕ)) (im : Image) :
    (setPixelFold col cond l im).format = im.format := by
  induction l generalizing im with
  | nil => rfl
  | cons hd tl ih =>
      show (setPixelFold col cond tl _).format = _
      rw [ih]; dsimp only; split <;> simp

/-- Writing a pixel of an RGBA buffer and reading the same coordinate back
yields the color with each channel passed through the byte conversion. -/
theorem Image.getPixel_setPixel_self_rgba (img : Image) (x y : ℕ) (c : Color)
    (hf : img.format = Format.RGBA) (hx : x < img.width) (hy : y < img.height) :
    (img.setPixel x y c).getPixel x y = convRGBA c := by
  rcases img with ⟨w, h, fmt, d⟩
  obtain rfl : fmt = Format.RGBA := hf
  have hb : x < w ∧ y < h := ⟨hx, hy⟩
  simp only [Image.setPixel, Image.setPixelUnsafe, Image.getPixelIndex,
    Image.getPixel, Image.getPixelUnsafe, hb.1, hb.2, and_self, if_true]
  set i := (y * w + x) * bytesPerPixel Format.RGBA with hi
  have h0 : updByte (updByte (updByte (updByte d i (floatToByte c.r)) (i+1)
      (floatToByte c.g)) (i+2) (floatToByte c.b)) (i+3) (floatToByte c.a) i
      = floatToByte c.r := by
    rw [updByte_ne (by omega), updByte_ne (by omega), updByte_ne (by omega),
      updByte_same]
  have h1 : updByte (updByte (updByte (updByte d i (floatToByte c.r)) (i+1)
      (floatToByte c.g)) (i+2) (floatToByte c.b)) (i+3) (floatToByte c.a) (i+1)
      = floatToByte c.g := by
    rw [updByte_ne (by omega), updByte_ne (by omega), updByte_same]
  have h2 : updByte (updByte (updByte (updByte d i (floatToByte c.r)) (i+1)
      (floatToByte c.g)) (i+2) (floatToByte c.b)) (i+3) (floatToByte c.a) (i+2)
      = floatToByte c.b := by
    rw [updByte_ne (by omega), updByte_same]
  have h3 : updByte (updByte (updByte (updByte d i (floatToByte c.r)) (i+1)
      (floatToByte c.g)) (i+2) (floatToByte c.b)) (i+3) (floatToByte c.a) (i+3)
      = floatToByte c.a := updByte_same ..
  rw [h0, h1, h2, h3]
  rfl

/-- Writing a pixel of a Grayscale buffer and reading the same coordinate
back yields the truncated luminance byte in all three channels, alpha 1. -/
theorem Image.getPixel_setPixel_self_gray (img : Image) (x y : ℕ) (c : Color)
    (hf : img.format = Format.Grayscale) (hx : x < img.width) (hy : y < img.height) :
    (img.setPixel x y c).getPixel x y = convGray c := by
  rcases img with ⟨w, h, fmt, d⟩
  obtain rfl : fmt = Format.Grayscale := hf
  have hb : x < w ∧ y < h := ⟨hx, hy⟩
  simp only [Image.setPixel, Image.setPixelUnsafe, Image.getPixelIndex,
    Image.getPixel, Image.getPixelUnsafe, hb.1, hb.2, and_self, if_true]
  rw [updByte_same]
  rfl

/-- Distinct in-range pixel coordinates have distinct linear indices. -/
theorem grid_index_inj {w x y a b : ℕ} (hx : x < w) (ha : a < w)
    (hEq : y * w + x = b * w + a) : x = a ∧ y = b := by
  have hw : 0 < w := by omega
  have h1 : (y * w + x) / w = y ∧ (y * w + x) % w = x :=
    (Nat.div_mod_unique hw).mpr ⟨by ring, hx⟩
  have h2 : (b * w + a) / w = b ∧ (b * w + a) % w = a :=
    (Nat.div_mod_unique hw).mpr ⟨by ring, ha⟩
  constructor
  · have hm := h1.2
    rw [hEq, h2.2] at hm
    exact hm.symm
  · have hd := h1.1
    rw [hEq, h2.1] at hd
    exact hd.symm

/-- Writing one pixel of an RGBA buffer does not change the value read at
any other coordinate. -/
theorem Image.getPixel_setPixel_ne_rgba (img : Image) {x y a b : ℕ} (c : Color)
    (hf : img.format = Format.RGBA) (hne : (a, b) ≠ (x, y)) :
    (img.setPixel x y c).getPixel a b = img.getPixel a b := by
  rcases img with ⟨w, h, fmt, d⟩
  obtain rfl : fmt = Format.RGBA := hf
  by_cases hset : x < w ∧ y < h
  · simp only [Image.setPixel, if_pos hset, Image.setPixelUnsafe,
      Image.getPixelIndex]
    by_cases hread : a < w ∧ b < h
    · simp only [Image.getPixel, Image.getPixelUnsafe, Image.getPixelIndex,
        bytesPerPixel, if_pos hread]
      have hPQ : y * w + x ≠ b * w + a := by
        intro hEq
        obtain ⟨h1, h2⟩ := grid_index_inj hread.1 hset.1 hEq.symm
        exact hne (by rw [h1, h2])
      set P := y * w + x with hP
      set Q := b * w + a with hQ
      have key : ∀ j, j < P * 4 ∨ P * 4 + 4 ≤ j →
          updByte (updByte (updByte (updByte d (P * 4) (floatToByte c.r))
            (P * 4 + 1) (floatToByte c.g)) (P * 4 + 2) (floatToByte c.b))
            (P * 4 + 3) (floatToByte c.a) j = d j := by
        intro j hj
        rw [updByte_ne (by omega), updByte_ne (by omega), updByte_ne (by omega),
          updByte_ne (by omega)]
      have hq : Q * 4 < P * 4 ∨ P * 4 + 4 ≤ Q * 4 := by omega
      rw [key (Q * 4) (by omega), key (Q * 4 + 1) (by omega),
        key (Q * 4 + 2) (by omega), key (Q * 4 + 3) (by omega)]
    · simp only [Image.getPixel, if_neg hread]
  · simp only [Image.setPixel, if_neg hset]

/-- A `setPixelFold` does not change the value read at a coordinate it never
visits (RGBA buffers). -/
theorem getPixel_setPixelFold_not_mem (col : ℕ × ℕ → Color)
    (cond : ℕ × ℕ → Bool) :
    ∀ (l : List (ℕ × ℕ)) (im : Image), im.format = Format.RGBA →
      ∀ {x y : ℕ}, (x, y) ∉ l →
      (setPixelFold col cond l im).getPixel x y = im.getPixel x y := by
  intro l
  induction l with
  | nil => intro im _ x y _; rfl
  | cons hd tl ih =>
      intro im hf x y hmem
      have hne : (x, y) ≠ hd := fun hEq => hmem (hEq ▸ List.mem_cons_self hd tl)
      have htl : (x, y) ∉ tl := fun hEq => hmem (List.mem_cons_of_mem hd hEq)
      rw [setPixelFold, List.foldl_cons]
      set st := if cond hd then im.setPixel hd.1 hd.2 (col hd) else im with hst
      have hstf : st.format = Format.RGBA := by
        rw [hst]; split <;> simp [hf]
      rw [show List.foldl _ st tl = setPixelFold col cond tl st from rfl,
        ih st hstf htl, hst]
      split
      · exact Image.getPixel_setPixel_ne_rgba im _ hf hne
      · rfl

/-- The value a `setPixelFold` over distinct coordinates leaves at a visited
in-range coordinate: the per-pixel color (through the RGBA byte conversion)
when the condition held there, the original value otherwise. -/
theorem getPixel_setPixelFold_mem (col : ℕ × ℕ → Color)
    (cond : ℕ × ℕ → Bool) :
    ∀ (l : List (ℕ × ℕ)) (im : Image), im.format = Format.RGBA → l.Nodup →
      ∀ {x y : ℕ}, (x, y) ∈ l → x < im.width → y < im.height →
      (setPixelFold col cond l im).getPixel x y =
        if cond (x, y) then convRGBA (col (x, y)) else im.getPixel x y := by
  intro l
  induction l with
  | nil => intro im _ _ x y h; cases h
  | cons hd tl ih =>
      intro im hf hnd x y hmem hx hy
      rw [setPixelFold, List.foldl_cons]
      set st := if cond hd then im.setPixel hd.1 hd.2 (col hd) else im with hst
      have hstf : st.format = Format.RGBA := by
        rw [hst]; split <;> simp [hf]
      have hstw : st.width = im.width := by rw [hst]; split <;> simp
      have hsth : st.height = im.height := by rw [hst]; split <;> simp
      have hfold : List.foldl
          (fun acc xy => if cond xy then acc.setPixel xy.1 xy.2 (col xy) else acc)
          st tl = setPixelFold col cond tl st := rfl
      rcases List.mem_cons.mp hmem with hEq | htl

      · obtain rfl : hd = (x, y) := hEq.symm
        have hnotin : (x, y) ∉ tl := (List.nodup_cons.mp hnd).1
        rw [hfold, getPixel_setPixelFold_not_mem col cond tl st hstf hnotin, hst]
        split
        · exact Image.getPixel_setPixel_self_rgba im x y _ hf hx hy
        · rfl
      · have hne : (x, y) ≠ hd := by
          rintro rfl
          exact (List.nodup_cons.mp hnd).1 htl
        rw [hfold, ih st hstf (List.nodup_cons.mp hnd).2 htl
          (hstw ▸ hx) (hsth ▸ hy)]
        have hpass : st.getPixel x y = im.getPixel x y := by
          rw [hst]; split
          · exact Image.getPixel_setPixel_ne_rgba im _ hf hne
          · rfl
        rw [hpass]

/-- A `setPixelFold` whose condition fails at every visited coordinate is the
identity (no pixel is ever written, whatever the format). -/
theorem setPixelFold_no_write (col : ℕ × ℕ → Color) (cond : ℕ × ℕ → Bool) :
    ∀ (l : List (ℕ × ℕ)) (im : Image), (∀ xy ∈ l, cond xy = false) →
      setPixelFold col cond l im = im := by
  intro l
  induction l with
  | nil => intro im _; rfl
  | cons hd tl ih =>
      intro im hall
      rw [setPixelFold, List.foldl_cons]
      rw [if_neg (by rw [hall hd (List.mem_cons_self hd tl)]; exact Bool.false_ne_true)]
      exact ih im (fun xy hxy => hall xy (List.mem_cons_of_mem hd hxy))

/-- The signed edge function from `Image::fillTriangle`:
`edge(a,b,p) = (p.x-a.x)(b.y-a.y) - (p.y-a.y)(b.x-a.x)`. -/
def edge (a b p : Vector2f) : ℚ :=
  (p.x - a.x) * (b.y - a.y) - (p.y - a.y) * (b.x - a.x)

/-- The fill test of `Image::fillTriangle`: all three edge values
non-negative for the vertex order `(p2,p3,p), (p3,p1,p), (p1,p2,p)`. -/
def insideTri (p1 p2 p3 p : Vector2f) : Prop :=
  0 ≤ edge p2 p3 p ∧ 0 ≤ edge p3 p1 p ∧ 0 ≤ edge p1 p2 p

instance (p1 p2 p3 p : Vector2f) : Decidable (insideTri p1 p2 p3 p) := by
  unfold insideTri; infer_instance

/-- The sampling point of pixel `(x, y)`: its center `(x+0.5, y+0.5)`. -/
def pixelCenter (x y : ℕ) : Vector2f := ⟨(x : ℚ) + 1/2, (y : ℚ) + 1/2⟩

/-- The clipped bounding-box coordinates iterated by `Image::fillTriangle`:
`minX`/`minY` are the float minima cast to int (truncation) and clamped up
to 0, `maxX`/`maxY` the ceilings of the maxima clamped down to
width/height; the loops run for `minX <= x < maxX`, `minY <= y < maxY`. -/
def triCoords (p1 p2 p3 : Vector2f) (w h : ℕ) : List (ℕ × ℕ) :=
  let minX := (max (truncQ (min p1.x (min p2.x p3.x))) 0).toNat
  let minY := (max (truncQ (min p1.y (min p2.y p3.y))) 0).toNat
  let maxX := (min (⌈max p1.x (max p2.x p3.x)⌉) (w : ℤ)).toNat
  let maxY := (min (⌈max p1.y (max p2.y p3.y)⌉) (h : ℤ)).toNat
  gridCoords minX maxX minY maxY

/-- `Image::fillTriangle`: iterate the clipped bounding box and fill each
pixel whose center passes the three-edge test. -/
def Image.fillTriangle (img : Image) (p1 p2 p3 : Vector2f) (c : Color) : Image :=
  setPixelFold (fun _ => c)
    (fun xy => decide (insideTri p1 p2 p3 (pixelCenter xy.1 xy.2)))
    (triCoords p1 p2 p3 img.width img.height) img

theorem triCoords_nodup (p1 p2 p3 : Vector2f) (w h : ℕ) :
    (triCoords p1 p2 p3 w h).Nodup :=
  gridCoords_nodup _ _ _ _

theorem mem_triCoords_bounds {p1 p2 p3 : Vector2f} {w h x y : ℕ}
    (hm : (x, y) ∈ triCoords p1 p2 p3 w h) : x < w ∧ y < h := by
  simp only [triCoords] at hm
  obtain ⟨⟨_, hx⟩, _, hy⟩ := mem_gridCoords.mp hm
  omega

/-- The three edge values at any point sum to the constant
`edge p1 p2 p3`, twice the signed area of the triangle. -/
theorem edge_sum (p1 p2 p3 p : Vector2f) :
    edge p2 p3 p + edge p3 p1 p + edge p1 p2 p = edge p1 p2 p3 := by
  unfold edge; ring

/-- For a clockwise triangle (negative doubled signed area) no point can
pass the three-edge test. -/
theorem not_insideTri_of_cw {p1 p2 p3 : Vector2f} (hcw : edge p1 p2 p3 < 0)
    (p : Vector2f) : ¬ insideTri p1 p2 p3 p := by
  rintro ⟨h1, h2, h3⟩
  have hs := edge_sum p1 p2 p3 p
  linarith

/-- The byte conversion is the identity on exact byte values. -/
theorem floatToByte_of_isByte {q : ℚ} (h : isByte q) :
    ((floatToByte q : ℕ) : ℚ) = q := by
  obtain ⟨hden, h0, h255⟩ := h
  have hq : ((q.num : ℤ) : ℚ) = q := by
    rw [← Rat.num_div_den q, hden]
    norm_num
  have hq0 : 0 ≤ q := by
    rw [← hq]
    exact_mod_cast h0
  have htr : truncQ q = q.num := by
    unfold truncQ
    rw [if_pos hq0]
    conv_lhs => rw [← hq]
    exact Int.floor_intCast q.num
  unfold floatToByte
  rw [htr, Nat.mod_eq_of_lt (by omega), ← hq]
  have h2 := Int.toNat_of_nonneg h0
  exact_mod_cast congrArg (fun z : ℤ => (z : ℚ)) h2

/-- The RGBA store/load conversion is the identity on byte-valued colors. -/
theorem convRGBA_eq_self {c : Color} (hc : isByteColor c) : convRGBA c = c := by
  obtain ⟨h1, h2, h3, h4⟩ := hc
  unfold convRGBA
  rw [floatToByte_of_isByte h1, floatToByte_of_isByte h2,
    floatToByte_of_isByte h3, floatToByte_of_isByte h4]

/-- A 3 by 3 RGBA test buffer, initially all zero bytes. -/
def triImg : Image := ⟨3, 3, Format.RGBA, fun _ => 0⟩

/-- A byte-valued test color. -/
def triColor : Color := ⟨9, 9, 9, 9⟩

/-- Triangle vertices: origin, straight down, straight right; in screen
coordinates (y growing downward) this order is counter-clockwise. -/
def q1 : Vector2f := ⟨0, 0⟩

def q2 : Vector2f := ⟨0, 3⟩

def q3 : Vector2f := ⟨3, 0⟩

/-- C6: in `fillTriangle(p1,p2,p3,color)`, a pixel of the clipped bounding
box is filled if and only if the three signed edge functions
`edge(p2,p3,p), edge(p3,p1,p), edge(p1,p2,p)` at its center are all
non-negative (stated for RGBA buffers and byte-valued colors, where the
stored color reads back exactly); and for every triangle given in the
opposite (clockwise) winding order, i.e. with `edge(p1,p2,p3) < 0`, no
pixel is filled and the buffer is unchanged. -/
theorem fillTriangle_edge_spec (img : Image) (p1 p2 p3 : Vector2f)
    (c : Color) (x y : ℕ) :
    (img.format = Format.RGBA → isByteColor c →
      (x, y) ∈ triCoords p1 p2 p3 img.width img.height →
      ((insideTri p1 p2 p3 (pixelCenter x y) →
          (img.fillTriangle p1 p2 p3 c).getPixel x y = c) ∧
       (¬ insideTri p1 p2 p3 (pixelCenter x y) →
          (img.fillTriangle p1 p2 p3 c).getPixel x y = img.getPixel x y)))
    ∧ (edge p1 p2 p3 < 0 → img.fillTriangle p1 p2 p3 c = img) := by
  constructor
  · intro hf hc hm
    have hb := mem_triCoords_bounds hm
    have hmain := getPixel_setPixelFold_mem (fun _ => c)
      (fun xy => decide (insideTri p1 p2 p3 (pixelCenter xy.1 xy.2)))
      (triCoords p1 p2 p3 img.width img.height) img hf
      (triCoords_nodup p1 p2 p3 img.width img.height) hm hb.1 hb.2
    constructor
    · intro hin
      rw [Image.fillTriangle, hmain]
      simp [hin, convRGBA_eq_self hc]
    · intro hout
      rw [Image.fillTriangle, hmain]
      simp [hout]
  · intro hcw
    exact setPixelFold_no_write _ _ _ img
      (fun xy _ => decide_eq_false (not_insideTri_of_cw hcw _))

/-- Witness for C6 at concrete inputs: pixel (0,0) of a 3 by 3 buffer is
filled by the counter-clockwise triangle (its center passes the edge test),
and the same triangle with two vertices swapped (clockwise) leaves the
buffer untouched. -/
theorem fillTriangle_edge_spec_witness :
    (triImg.fillTriangle q1 q2 q3 triColor).getPixel 0 0 = triColor ∧
    triImg.fillTriangle q1 q3 q2 triColor = triImg := by
  have hmem : ((0, 0) : ℕ × ℕ) ∈ triCoords q1 q2 q3 triImg.width triImg.height := by
    refine mem_gridCoords.mpr ?_
    norm_num [truncQ, q1, q2, q3, triImg]
  constructor
  · exact ((fillTriangle_edge_spec triImg q1 q2 q3 triColor 0 0).1
      rfl (by norm_num [isByteColor, isByte, triColor]) hmem).1
      (by norm_num [insideTri, edge, q1, q2, q3, pixelCenter])
  · exact (fillTriangle_edge_spec triImg q1 q3 q2 triColor 0 0).2
      (by norm_num [edge, q1, q2, q3])

/-- A 2 by 2 RGBA buffer for the bounds-check witness. -/
def smallImg : Image := ⟨2, 2, Format.RGBA, fun _ => 0⟩

/-- A 1 by 1 RGBA buffer. -/
def rgba1 : Image := ⟨1, 1, Format.RGBA, fun _ => 0⟩

/-- A 1 by 1 Grayscale buffer. -/
def gray1 : Image := ⟨1, 1, Format.Grayscale, fun _ => 0⟩

/-- C9: for any out-of-range coordinate, `setPixel` returns the image
unchanged (every byte untouched) and `getPixel` returns the
default-constructed color, fully-opaque white `(1,1,1,1)` in the float
convention; no error is raised. -/
theorem pixel_bounds_spec (img : Image) (x y : ℕ) (c : Color)
    (h : ¬ (x < img.width ∧ y < img.height)) :
    img.setPixel x y c = img ∧ img.getPixel x y = Color.white := by
  constructor
  · rw [Image.setPixel, if_neg h]
  · rw [Image.getPixel, if_neg h]

/-- Witness for C9 at the claim's coordinate `x = width, y = 0` on a
concrete 2 by 2 buffer. -/
theorem pixel_bounds_spec_witness :
    smallImg.setPixel 2 0 triColor = smallImg ∧
    smallImg.getPixel 2 0 = Color.white :=
  pixel_bounds_spec smallImg 2 0 triColor (by decide)

/-- Counterexample to C8 as stated: the round trip is not exact for every
color. An RGBA buffer truncates the fractional channel 1/2 to the byte 0,
and a Grayscale buffer returns the luminance truncated to a byte (76), not
the exact luminance 76.245 of (255,0,0). -/
theorem setPixel_getPixel_roundtrip_counterexample :
    (rgba1.setPixel 0 0 ⟨1/2, 0, 0, 1⟩).getPixel 0 0 ≠ (⟨1/2, 0, 0, 1⟩ : Color) ∧
    ((gray1.setPixel 0 0 ⟨255, 0, 0, 255⟩).getPixel 0 0).r ≠ lum ⟨255, 0, 0, 255⟩ := by
  constructor
  · rw [Image.getPixel_setPixel_self_rgba rgba1 0 0 _ rfl (by decide) (by decide)]
    intro hEq
    have hr := congrArg Color.r hEq
    norm_num [convRGBA, floatToByte, truncQ] at hr
  · rw [Image.getPixel_setPixel_self_gray gray1 0 0 _ rfl (by decide) (by decide)]
    norm_num [convGray, floatToByte, truncQ, lum]
    rw [show Int.toNat 76 % 256 = 76 from rfl]
    norm_num

/-- C8 amended: for in-bounds coordinates and byte-valued colors, the
set-then-get round trip is exact on RGBA buffers; on Grayscale buffers it
returns R = G = B = the luminance `0.299R+0.587G+0.114B` truncated to a
byte, with alpha at the default 1. -/
theorem setPixel_getPixel_roundtrip_amended (img : Image) (x y : ℕ) (c : Color)
    (hx : x < img.width) (hy : y < img.height) (hc : isByteColor c) :
    (img.format = Format.RGBA → (img.setPixel x y c).getPixel x y = c) ∧
    (img.format = Format.Grayscale →
      (img.setPixel x y c).getPixel x y =
        ⟨(floatToByte (lum c) : ℚ), (floatToByte (lum c) : ℚ),
         (floatToByte (lum c) : ℚ), 1⟩) := by
  constructor
  · intro hf
    rw [Image.getPixel_setPixel_self_rgba img x y c hf hx hy, convRGBA_eq_self hc]
  · intro hf
    rw [Image.getPixel_setPixel_self_gray img x y c hf hx hy]
    rfl

/-- Witness for the amended C8 on concrete 1 by 1 RGBA and Grayscale
buffers with the byte-valued color (9,9,9,9). -/
theorem setPixel_getPixel_roundtrip_amended_witness :
    (rgba1.setPixel 0 0 triColor).getPixel 0 0 = triColor ∧
    (gray1.setPixel 0 0 triColor).getPixel 0 0 =
      ⟨(floatToByte (lum triColor) : ℚ), (floatToByte (lum triColor) : ℚ),
       (floatToByte (lum triColor) : ℚ), 1⟩ := by
  constructor
  · exact (setPixel_getPixel_roundtrip_amended rgba1 0 0 triColor (by decide)
      (by decide) (by norm_num [isByteColor, isByte, triColor])).1 rfl
  · exact (setPixel_getPixel_roundtrip_amended gray1 0 0 triColor (by decide)
      (by decide) (by norm_num [isByteColor, isByte, triColor])).2 rfl

/-- `kernelSize = static_cast<int>(std::ceil(sigma * 6))` from
`Image::applyGaussianBlur`: the SIZE of the 1-D kernel vector (the code
iterates `i` over `[0, kernelSize)`), not its radius. For `sigma <= 0` the
C++ vector size would be non-positive; the model clamps with `toNat` and
the claims only use `sigma > 0`. -/
def gaussKernelSize (sigma : ℚ) : ℕ := (⌈sigma * 6⌉).toNat

/-- The source-pixel offsets `i - kernelSize / 2` (integer division) that
the convolution loops add to the pixel coordinate (`srcX = x + i -
kernelSize / 2`), for `i` in `[0, kernelSize)`. -/
def blurSampleOffsets (sigma : ℚ) : List ℤ :=
  (List.range (gaussKernelSize sigma)).map
    (fun i : ℕ => (i : ℤ) - (gaussKernelSize sigma : ℤ) / 2)

/-- The unnormalized kernel entry `exp(-(x*x)/(2*sigma*sigma))` with
`x = i - (kernelSize - 1)/2.0`, idealised over ℝ. -/
noncomputable def gaussRaw (sigma : ℚ) (i : ℕ) : ℝ :=
  Real.exp (-(((i : ℝ) - ((gaussKernelSize sigma : ℝ) - 1) / 2) ^ 2) /
    (2 * (sigma : ℝ) ^ 2))

/-- The normalized kernel entry (`k /= sum` over the whole kernel). -/
noncomputable def gaussKernel (sigma : ℚ) (i : ℕ) : ℝ :=
  gaussRaw sigma i / ∑ j in Finset.range (gaussKernelSize sigma), gaussRaw sigma j

theorem gaussRaw_pos (sigma : ℚ) (i : ℕ) : 0 < gaussRaw sigma i :=
  Real.exp_pos _

theorem gaussKernelSize_pos {sigma : ℚ} (h : 0 < sigma) :
    0 < gaussKernelSize sigma := by
  unfold gaussKernelSize
  have hc : (0 : ℤ) < ⌈sigma * 6⌉ := Int.ceil_pos.mpr (by positivity)
  omega

theorem gaussRawSum_pos {sigma : ℚ} (h : 0 < sigma) :
    0 < ∑ j in Finset.range (gaussKernelSize sigma), gaussRaw sigma j :=
  Finset.sum_pos (fun i _ => gaussRaw_pos sigma i)
    ⟨0, Finset.mem_range.mpr (gaussKernelSize_pos h)⟩

theorem gaussKernel_pos {sigma : ℚ} (h : 0 < sigma) (i : ℕ) :
    0 < gaussKernel sigma i :=
  div_pos (gaussRaw_pos sigma i) (gaussRawSum_pos h)

/-- Counterexample to C4 as stated: at `sigma = 1` the claim says the
kernel covers offsets `-6 .. 6` (radius `ceil(sigma*6)`); in the code
`ceil(sigma*6) = 6` is the kernel SIZE and the offsets are `-3 .. 2`,
so neither `-6` nor `6` is sampled. -/
theorem gaussian_kernel_radius_counterexample :
    gaussKernelSize 1 = 6 ∧
    (-6 : ℤ) ∉ blurSampleOffsets 1 ∧ (6 : ℤ) ∉ blurSampleOffsets 1 := by
  have h6 : gaussKernelSize 1 = 6 := by
    unfold gaussKernelSize
    norm_num
    rfl
  refine ⟨h6, ?_, ?_⟩ <;> rw [blurSampleOffsets, h6] <;> decide

/-- C4 amended: the 1-D kernel has SIZE `ceil(sigma*6)` (not radius), so
the convolution samples offsets from `-(size/2)` to `size - 1 - size/2`
(integer division); the weights are `exp(-(x-center)^2/(2 sigma^2))` with
center `(size-1)/2` and are normalized so that the full kernel sums to 1. -/
theorem gaussian_kernel_amended (sigma : ℚ) (h : 0 < sigma) :
    (∀ k : ℤ, k ∈ blurSampleOffsets sigma ↔
      -((gaussKernelSize sigma : ℤ) / 2) ≤ k ∧
        k ≤ (gaussKernelSize sigma : ℤ) - 1 - (gaussKernelSize sigma : ℤ) / 2) ∧
    ∑ i in Finset.range (gaussKernelSize sigma), gaussKernel sigma i = 1 := by
  constructor
  · intro k
    unfold blurSampleOffsets
    constructor
    · intro hk
      obtain ⟨i, hi, rfl⟩ := List.mem_map.mp hk
      have hlt : i < gaussKernelSize sigma := List.mem_range.mp hi
      omega
    · rintro ⟨h1, h2⟩
      exact List.mem_map.mpr ⟨(k + (gaussKernelSize sigma : ℤ) / 2).toNat,
        List.mem_range.mpr (by omega), by omega⟩
  · unfold gaussKernel
    rw [← Finset.sum_div]
    exact div_self (ne_of_gt (gaussRawSum_pos h))

/-- Witness for the amended C4 at `sigma = 1`. -/
theorem gaussian_kernel_amended_witness :
    (0 : ℚ) < 1 ∧
    ((∀ k : ℤ, k ∈ blurSampleOffsets 1 ↔
      -((gaussKernelSize 1 : ℤ) / 2) ≤ k ∧
        k ≤ (gaussKernelSize 1 : ℤ) - 1 - (gaussKernelSize 1 : ℤ) / 2) ∧
    ∑ i in Finset.range (gaussKernelSize 1), gaussKernel 1 i = 1) :=
  ⟨by norm_num, gaussian_kernel_amended 1 (by norm_num)⟩

/-- Truncation toward zero on ℝ, the `static_cast<uint8_t>` applied to the
accumulated float channel. -/
noncomputable def truncR (r : ℝ) : ℤ := if 0 ≤ r then ⌊r⌋ else ⌈r⌉

/-- The accumulated real channel value converted to a stored byte and read
back as a rational channel. -/
noncomputable def realToByteQ (r : ℝ) : ℚ := ((truncR r).toNat % 256 : ℕ)

theorem truncR_ratCast (q : ℚ) : truncR (q : ℝ) = truncQ q := by
  unfold truncR truncQ
  rcases le_or_lt 0 q with h | h
  · rw [if_pos h, if_pos (by exact_mod_cast h), Rat.floor_cast]
  · rw [if_neg (not_le.mpr h), if_neg (by exact_mod_cast (not_le.mpr h)),
      Rat.ceil_cast]

theorem realToByteQ_ratCast (q : ℚ) : realToByteQ (q : ℝ) = floatToByte q := by
  unfold realToByteQ floatToByte
  rw [truncR_ratCast]

theorem realToByteQ_of_isByte {q : ℚ} (h : isByte q) : realToByteQ (q : ℝ) = q := by
  rw [realToByteQ_ratCast]
  exact floatToByte_of_isByte h

/-- The kernel indices whose source sample `z + i - kernelSize/2` lies
inside `[0, bound)`: only these contribute to the color sum and to the
running weight total of a blur pass. -/
def blurInb (n bound z : ℕ) : Finset ℕ :=
  (Finset.range n).filter
    (fun i => 0 ≤ (z : ℤ) + (i : ℤ) - (n : ℤ) / 2 ∧
      (z : ℤ) + (i : ℤ) - (n : ℤ) / 2 < (bound : ℤ))

/-- The in-bounds source coordinate `z + i - kernelSize/2` as a ℕ. -/
def blurSrc (n z i : ℕ) : ℕ := ((z : ℤ) + (i : ℤ) - (n : ℤ) / 2).toNat

/-- The running total of in-bounds kernel weights (`weightSum`). -/
noncomputable def blurWeightSum (sigma : ℚ) (bound z : ℕ) : ℝ :=
  ∑ i in blurInb (gaussKernelSize sigma) bound z, gaussKernel sigma i

/-- One channel of the horizontal pass accumulator at pixel `(x,y)`:
in-bounds samples along the row, each weighted by the kernel. -/
noncomputable def blurChanH (sigma : ℚ) (src : Image) (x y : ℕ)
    (ch : Color → ℚ) : ℝ :=
  ∑ i in blurInb (gaussKernelSize sigma) src.width x,
    gaussKernel sigma i *
      ((ch (src.getPixel (blurSrc (gaussKernelSize sigma) x i) y) : ℚ) : ℝ)

/-- One channel of the vertical pass accumulator at pixel `(x,y)`:
in-bounds samples along the column, each weighted by the kernel. -/
noncomputable def blurChanV (sigma : ℚ) (src : Image) (x y : ℕ)
    (ch : Color → ℚ) : ℝ :=
  ∑ i in blurInb (gaussKernelSize sigma) src.height y,
    gaussKernel sigma i *
      ((ch (src.getPixel x (blurSrc (gaussKernelSize sigma) y i)) : ℚ) : ℝ)

/-- The color the horizontal pass stores at `(x,y)`: each channel is the
weighted in-bounds sum divided by the running weight total, truncated to a
byte. -/
noncomputable def blurColorH (sigma : ℚ) (src : Image) (x y : ℕ) : Color :=
  ⟨realToByteQ (blurChanH sigma src x y Color.r / blurWeightSum sigma src.width x),
   realToByteQ (blurChanH sigma src x y Color.g / blurWeightSum sigma src.width x),
   realToByteQ (blurChanH sigma src x y Color.b / blurWeightSum sigma src.width x),
   realToByteQ (blurChanH sigma src x y Color.a / blurWeightSum sigma src.width x)⟩

/-- The color the vertical pass stores at `(x,y)`. -/
noncomputable def blurColorV (sigma : ℚ) (src : Image) (x y : ℕ) : Color :=
  ⟨realToByteQ (blurChanV sigma src x y Color.r / blurWeightSum sigma src.height y),
   realToByteQ (blurChanV sigma src x y Color.g / blurWeightSum sigma src.height y),
   realToByteQ (blurChanV sigma src x y Color.b / blurWeightSum sigma src.height y),
   realToByteQ (blurChanV sigma src x y Color.a / blurWeightSum sigma src.height y)⟩

/-- The horizontal pass of `Image::applyGaussianBlur`: reads `src`, writes
every pixel of a fresh zero buffer `temp` of the same size and format. -/
noncomputable def blurPassH (sigma : ℚ) (img : Image) : Image :=
  setPixelFold (fun xy => blurColorH sigma img xy.1 xy.2) (fun _ => true)
    (gridCoords 0 img.width 0 img.height)
    (Image.mkBlank img.width img.height img.format)

/-- `Image::applyGaussianBlur(sigma)`: horizontal pass into a temporary
buffer, then vertical pass reading the temporary and overwriting self. -/
noncomputable def Image.applyGaussianBlur (img : Image) (sigma : ℚ) : Image :=
  setPixelFold
    (fun xy => blurColorV sigma (blurPassH sigma img) xy.1 xy.2) (fun _ => true)
    (gridCoords 0 img.width 0 img.height) img

/-- A weighted average with positive weights of a constant is that
constant. -/
theorem weighted_avg_const (S : Finset ℕ) (f : ℕ → ℝ) (v : ℝ)
    (hne : S.Nonempty) (hpos : ∀ i ∈ S, 0 < f i) :
    (∑ i in S, f i * v) / (∑ i in S, f i) = v := by
  rw [← Finset.sum_mul]
  exact mul_div_cancel_left₀ v (ne_of_gt (Finset.sum_pos hpos hne))

/-- The kernel's central index is always in bounds, so the in-bounds index
set of a pass is nonempty for every in-range pixel. -/
theorem blurInb_nonempty {sigma : ℚ} (h : 0 < sigma) {bound z : ℕ}
    (hz : z < bound) :
    (blurInb (gaussKernelSize sigma) bound z).Nonempty := by
  have hn := gaussKernelSize_pos h
  exact ⟨gaussKernelSize sigma / 2,
    Finset.mem_filter.mpr ⟨Finset.mem_range.mpr (by omega), by omega, by omega⟩⟩

theorem blurSrc_lt {n bound z i : ℕ}
    (hi : i ∈ blurInb n bound z) : blurSrc n z i < bound := by
  have hm := Finset.mem_filter.mp hi
  unfold blurSrc
  omega

/-- The horizontal pass stores the source color back at every pixel of a
uniform byte-valued source: the weighted sum of the constant divided by the
running weight total is the constant, and truncation is the identity on its
byte channels. -/
theorem blurColorH_uniform (sigma : ℚ) (src : Image) (x y : ℕ) (c : Color)
    (hσ : 0 < sigma) (hx : x < src.width) (hy : y < src.height)
    (hc : isByteColor c)
    (hu : ∀ a b : ℕ, a < src.width → b < src.height → src.getPixel a b = c) :
    blurColorH sigma src x y = c := by
  have hne := blurInb_nonempty hσ hx
  have hpos : ∀ i ∈ blurInb (gaussKernelSize sigma) src.width x,
      0 < gaussKernel sigma i := fun i _ => gaussKernel_pos hσ i
  have hpix : ∀ i ∈ blurInb (gaussKernelSize sigma) src.width x,
      src.getPixel (blurSrc (gaussKernelSize sigma) x i) y = c :=
    fun i hi => hu _ _ (blurSrc_lt hi) hy
  have hchan : ∀ ch : Color → ℚ,
      blurChanH sigma src x y ch / blurWeightSum sigma src.width x
        = ((ch c : ℚ) : ℝ) := by
    intro ch
    unfold blurChanH blurWeightSum
    rw [Finset.sum_congr rfl (fun i hi => by rw [hpix i hi])]
    exact weighted_avg_const _ _ _ hne hpos
  unfold blurColorH
  rw [hchan Color.r, hchan Color.g, hchan Color.b, hchan Color.a,
    realToByteQ_of_isByte hc.1, realToByteQ_of_isByte hc.2.1,
    realToByteQ_of_isByte hc.2.2.1, realToByteQ_of_isByte hc.2.2.2]

/-- The vertical pass stores the source color back at every pixel of a
uniform byte-valued source. -/
theorem blurColorV_uniform (sigma : ℚ) (src : Image) (x y : ℕ) (c : Color)
    (hσ : 0 < sigma) (hx : x < src.width) (hy : y < src.height)
    (hc : isByteColor c)
    (hu : ∀ a b : ℕ, a < src.width → b < src.height → src.getPixel a b = c) :
    blurColorV sigma src x y = c := by
  have hne := blurInb_nonempty hσ hy
  have hpos : ∀ i ∈ blurInb (gaussKernelSize sigma) src.height y,
      0 < gaussKernel sigma i := fun i _ => gaussKernel_pos hσ i
  have hpix : ∀ i ∈ blurInb (gaussKernelSize sigma) src.height y,
      src.getPixel x (blurSrc (gaussKernelSize sigma) y i) = c :=
    fun i hi => hu _ _ hx (blurSrc_lt hi)
  have hchan : ∀ ch : Color → ℚ,
      blurChanV sigma src x y ch / blurWeightSum sigma src.height y
        = ((ch c : ℚ) : ℝ) := by
    intro ch
    unfold blurChanV blurWeightSum
    rw [Finset.sum_congr rfl (fun i hi => by rw [hpix i hi])]
    exact weighted_avg_const _ _ _ hne hpos
  unfold blurColorV
  rw [hchan Color.r, hchan Color.g, hchan Color.b, hchan Color.a,
    realToByteQ_of_isByte hc.1, realToByteQ_of_isByte hc.2.1,
    realToByteQ_of_isByte hc.2.2.1, realToByteQ_of_isByte hc.2.2.2]

/-- C7: blurring a uniform byte-valued 10 by 10 RGBA buffer with any
`sigma > 0` leaves every pixel equal to the original color: since each
output channel is the weighted sum of in-bounds samples divided by the
running total of their weights, a constant input is an exact fixed point
of the normalized convolution (both passes). -/
theorem gaussianBlur_uniform_fixed_point (img : Image) (c : Color) (sigma : ℚ)
    (hf : img.format = Format.RGBA) (hw : img.width = 10) (hh : img.height = 10)
    (hc : isByteColor c) (hσ : 0 < sigma)
    (hu : ∀ a b : ℕ, a < img.width → b < img.height → img.getPixel a b = c) :
    ∀ x y : ℕ, x < img.width → y < img.height →
      (img.applyGaussianBlur sigma).getPixel x y = c := by
  have htf : (blurPassH sigma img).format = Format.RGBA := by
    simp [blurPassH, Image.mkBlank, hf]
  have htw : (blurPassH sigma img).width = img.width := by
    simp [blurPassH, Image.mkBlank]
  have hth : (blurPassH sigma img).height = img.height := by
    simp [blurPassH, Image.mkBlank]
  have htu : ∀ a b : ℕ, a < img.width → b < img.height →
      (blurPassH sigma img).getPixel a b = c := by
    intro a b ha hb
    unfold blurPassH
    have hmem := getPixel_setPixelFold_mem
      (fun xy => blurColorH sigma img xy.1 xy.2) (fun _ => true)
      (gridCoords 0 img.width 0 img.height)
      (Image.mkBlank img.width img.height img.format)
      hf (gridCoords_nodup _ _ _ _)
      (mem_gridCoords.mpr ⟨⟨Nat.zero_le _, ha⟩, Nat.zero_le _, hb⟩) ha hb
    rw [hmem]
    have hcol : blurColorH sigma img a b = c :=
      blurColorH_uniform sigma img a b c hσ ha hb hc hu
    simp [hcol, convRGBA_eq_self hc]
  intro x y hx hy
  unfold Image.applyGaussianBlur
  rw [getPixel_setPixelFold_mem _ _ _ img hf (gridCoords_nodup _ _ _ _)
    (mem_gridCoords.mpr ⟨⟨Nat.zero_le _, hx⟩, Nat.zero_le _, hy⟩) hx hy]
  have hcol : blurColorV sigma (blurPassH sigma img) x y = c := by
    refine blurColorV_uniform sigma (blurPassH sigma img) x y c hσ
      (htw.symm ▸ hx) (hth.symm ▸ hy) hc ?_
    intro a b ha hb
    exact htu a b (htw ▸ ha) (hth ▸ hb)
  simp [hcol, convRGBA_eq_self hc]

/-- A uniform 10 by 10 RGBA buffer whose bytes are all 7, i.e. every pixel
holds the byte-valued color (7,7,7,7). -/
def unifImg : Image := ⟨10, 10, Format.RGBA, fun _ => 7⟩

/-- Witness for C7: the all-7 10 by 10 RGBA buffer blurred with
`sigma = 1` still reads (7,7,7,7) at the concrete pixel (3,4). -/
theorem gaussianBlur_uniform_fixed_point_witness :
    (unifImg.applyGaussianBlur 1).getPixel 3 4 = (⟨7, 7, 7, 7⟩ : Color) :=
  gaussianBlur_uniform_fixed_point unifImg ⟨7, 7, 7, 7⟩ 1 rfl rfl rfl
    (by norm_num [isByteColor, isByte]) (by norm_num)
    (fun a b ha hb => by
      rw [Image.getPixel, if_pos ⟨ha, hb⟩]
      rfl)
    3 4 (by decide) (by decide)

/-- The quintic fade curve `t*t*t*(t*(t*6-15)+10)` from generatePerlinNoise. -/
def fade (t : ℚ) : ℚ := t * t * t * (t * (t * 6 - 15) + 10)

/-- Linear interpolation `a + t*(b-a)` from generatePerlinNoise. -/
def lerp (t a b : ℚ) : ℚ := a + t * (b - a)

/-- One octave's contribution to the Perlin accumulator at pixel `(x,y)`,
following `TextureGenerator::generatePerlinNoise`. The 256-entry gradient
table is abstracted as `grads` (in the code its entries are cos/sin of
random angles; see the gradient-angle model below); `(corner) & 255` on a
two's-complement int is `% 256` (non-negative remainder). -/
def perlinOctaveValue (grads : ℕ → ℚ × ℚ) (w h : ℕ) (scale : ℚ)
    (o x y : ℕ) : ℚ :=
  let frequency : ℚ := 2 ^ o
  let fx := x * scale * frequency / w
  let fy := y * scale * frequency / h
  let x0 : ℤ := ⌊fx⌋
  let y0 : ℤ := ⌊fy⌋
  let x1 := x0 + 1
  let y1 := y0 + 1
  let tx := fade (fx - x0)
  let ty := fade (fy - y0)
  let g00 := grads ((x0 + y0) % 256).toNat
  let g10 := grads ((x1 + y0) % 256).toNat
  let g01 := grads ((x0 + y1) % 256).toNat
  let g11 := grads ((x1 + y1) % 256).toNat
  let n00 := g00.1 * (fx - x0) + g00.2 * (fy - y0)
  let n10 := g10.1 * (fx - x1) + g10.2 * (fy - y0)
  let n01 := g01.1 * (fx - x0) + g01.2 * (fy - y1)
  let n11 := g11.1 * (fx - x1) + g11.2 * (fy - y1)
  lerp ty (lerp tx n00 n10) (lerp tx n01 n11)

/-- The fractal accumulator `noise[x][y]`: the octave loop runs for
`octave` from 0 while `octave < octaves` (so not at all when
`octaves <= 0`), adding `value * amplitude` with `amplitude = 0.5^octave`. -/
def perlinAcc (grads : ℕ → ℚ × ℚ) (w h : ℕ) (scale : ℚ) (octaves : ℤ)
    (x y : ℕ) : ℚ :=
  ∑ o in Finset.range octaves.toNat,
    perlinOctaveValue grads w h scale o x y * (1 / 2 : ℚ) ^ o

/-- `std::numeric_limits<float>::max()`, exact: `(2^24 - 1) * 2^104`. -/
def fltMax : ℚ := (2 ^ 24 - 1) * 2 ^ 104

/-- `minVal`: fold of `min` over all pixels starting from FLT_MAX. -/
def perlinMin (grads : ℕ → ℚ × ℚ) (w h : ℕ) (scale : ℚ) (octaves : ℤ) : ℚ :=
  (gridCoords 0 w 0 h).foldl
    (fun m xy => min m (perlinAcc grads w h scale octaves xy.1 xy.2)) fltMax

/-- `maxVal`: fold of `max` over all pixels starting from the float
`lowest()`, `-FLT_MAX`. -/
def perlinMax (grads : ℕ → ℚ × ℚ) (w h : ℕ) (scale : ℚ) (octaves : ℤ) : ℚ :=
  (gridCoords 0 w 0 h).foldl
    (fun m xy => max m (perlinAcc grads w h scale octaves xy.1 xy.2)) (-fltMax)

/-- The normalization divisor `range = maxVal - minVal`; the code then
emits `(noise[x][y] - minVal) / range` per pixel with no guard against
`range = 0`. -/
def perlinRange (grads : ℕ → ℚ × ℚ) (w h : ℕ) (scale : ℚ) (octaves : ℤ) : ℚ :=
  perlinMax grads w h scale octaves - perlinMin grads w h scale octaves

theorem foldl_min_all_zero (f : ℕ × ℕ → ℚ) :
    ∀ (l : List (ℕ × ℕ)) (a : ℚ), (∀ xy ∈ l, f xy = 0) → l ≠ [] → 0 ≤ a →
      l.foldl (fun m xy => min m (f xy)) a = 0 := by
  intro l
  induction l with
  | nil => intro a _ hne _; exact absurd rfl hne
  | cons hd tl ih =>
      intro a hall _ ha
      rw [List.foldl_cons]
      rcases eq_or_ne tl [] with rfl | hne
      · rw [List.foldl_nil, hall hd (List.mem_cons_self hd []), min_eq_right ha]
      · refine ih _ (fun xy hxy => hall xy (List.mem_cons_of_mem _ hxy)) hne ?_
        rw [hall hd (List.mem_cons_self hd tl)]
        exact le_min ha le_rfl

theorem foldl_max_all_zero (f : ℕ × ℕ → ℚ) :
    ∀ (l : List (ℕ × ℕ)) (a : ℚ), (∀ xy ∈ l, f xy = 0) → l ≠ [] → a ≤ 0 →
      l.foldl (fun m xy => max m (f xy)) a = 0 := by
  intro l
  induction l with
  | nil => intro a _ hne _; exact absurd rfl hne
  | cons hd tl ih =>
      intro a hall _ ha
      rw [List.foldl_cons]
      rcases eq_or_ne tl [] with rfl | hne
      · rw [List.foldl_nil, hall hd (List.mem_cons_self hd []), max_eq_right ha]
      · refine ih _ (fun xy hxy => hall xy (List.mem_cons_of_mem _ hxy)) hne ?_
        rw [hall hd (List.mem_cons_self hd tl)]
        exact max_le ha le_rfl

/-- C10: with `octaves <= 0` the octave loop never runs, the accumulator
stays identically zero on every pixel of a non-empty image, so `minVal`
and `maxVal` are both 0 and the per-pixel normalization
`(noise - minVal) / (maxVal - minVal)` divides by zero (a NaN in float
arithmetic), unguarded by the code. -/
theorem perlin_zero_range_div_by_zero (grads : ℕ → ℚ × ℚ) (w h : ℕ)
    (scale : ℚ) (octaves : ℤ) (hw : 1 ≤ w) (hh : 1 ≤ h)
    (hoct : octaves ≤ 0) :
    (∀ x y : ℕ, perlinAcc grads w h scale octaves x y = 0) ∧
    perlinRange grads w h scale octaves = 0 := by
  have hz : ∀ x y : ℕ, perlinAcc grads w h scale octaves x y = 0 := by
    intro x y
    unfold perlinAcc
    rw [Int.toNat_of_nonpos hoct]
    simp
  refine ⟨hz, ?_⟩
  have hnil : gridCoords 0 w 0 h ≠ [] :=
    List.ne_nil_of_mem (mem_gridCoords.mpr ⟨⟨Nat.zero_le 0, hw⟩, Nat.zero_le 0, hh⟩)
  have hmin : perlinMin grads w h scale octaves = 0 :=
    foldl_min_all_zero _ _ _ (fun xy _ => hz xy.1 xy.2) hnil
      (by norm_num [fltMax])
  have hmax : perlinMax grads w h scale octaves = 0 :=
    foldl_max_all_zero _ _ _ (fun xy _ => hz xy.1 xy.2) hnil
      (by norm_num [fltMax])
  rw [perlinRange, hmin, hmax, sub_zero]

/-- Witness for C10 at width 2, height 2, scale 1, octaves 0. -/
theorem perlin_zero_range_div_by_zero_witness :
    ((1 : ℕ) ≤ 2 ∧ (0 : ℤ) ≤ 0) ∧
    ((∀ x y : ℕ, perlinAcc (fun _ => (0, 0)) 2 2 1 0 x y = 0) ∧
      perlinRange (fun _ => (0, 0)) 2 2 1 0 = 0) :=
  ⟨⟨by norm_num, le_refl 0⟩,
    perlin_zero_range_div_by_zero (fun _ => (0, 0)) 2 2 1 0
      (by norm_num) (by norm_num) (le_refl 0)⟩

/-- The gradient-table construction of generatePerlinNoise: 256 angles
`dis(gen) * 2 * 3.14159f`, where `dis(gen)` draws uniform floats from an
mt19937 seeded by `std::random_device()` — an implicit entropy source that
is NOT a parameter of the function. The model makes the consumed stream
explicit as `entropy`; entry `i` is built from draw `i`, and the gradient
vector is (cos angle, sin angle) of the angle. -/
def perlinGradientAngles (entropy : ℕ → ℚ) : Fin 256 → ℚ :=
  fun i => entropy i * 2 * (314159 / 100000)

/-- C5 amended: no texture-generation function takes a seed parameter.
generatePerlinNoise's 256-entry gradient table is a function of the first
256 draws of the implicit random_device/mt19937 entropy stream alone: runs
whose entropy streams agree there build identical tables, and the declared
arguments (width, height, scale, octaves) play no part in it. -/
theorem perlin_gradient_table_entropy_determined (e1 e2 : ℕ → ℚ)
    (h : ∀ i : ℕ, i < 256 → e1 i = e2 i) :
    perlinGradientAngles e1 = perlinGradientAngles e2 := by
  funext i
  unfold perlinGradientAngles
  rw [h i i.isLt]

/-- Counterexample to C5 as stated: with every declared argument of
generatePerlinNoise fixed, two runs with different entropy streams build
different gradient tables, so no explicit seed parameter reproduces the
table (none exists in the signature). -/
theorem perlin_gradient_table_counterexample :
    perlinGradientAngles (fun _ => 0) ≠ perlinGradientAngles (fun _ => 1 / 2) := by
  intro hEq
  have h0 := congrFun hEq ⟨0, by norm_num⟩
  unfold perlinGradientAngles at h0
  norm_num at h0

/-- Witness for the amended C5: a stream agreeing with the zero stream on
its first 256 draws (and differing later) builds the same table. -/
theorem perlin_gradient_table_entropy_determined_witness :
    perlinGradientAngles (fun _ => 0) =
      perlinGradientAngles (fun i => if i < 256 then 0 else 99) :=
  perlin_gradient_table_entropy_determined _ _ (fun i hi => by rw [if_pos hi])

/-- The atlas (`class TextureAtlas`): the packed image, the ordered region
list, and the name-to-index map (`std::unordered_map` modelled as an
association list: lookups search it, inserts prepend a fresh key). -/
structure TextureAtlas where
  atlasImage : Image
  regions : List Region
  regionMap : List (String × ℕ)

/-- `TextureAtlas(width, height)`: fresh RGBA atlas image, no regions. -/
def TextureAtlas.mkAtlas (w h : ℕ) : TextureAtlas :=
  ⟨Image.mkBlank w h Format.RGBA, [], []⟩

/-- The cursor-rescan loop at the top of `TextureAtlas::addTexture`: walk
the already-placed regions maintaining `(currentX, currentY, maxRowHeight)`;
before accounting a region, wrap to a new row when the NEW texture would
overflow the atlas width at the current x; then fold in the region's height
and advance x by its width. Note the wrap test never runs after the last
region, so the returned cursor itself may stand past the atlas width. -/
def packCursor (regions : List Region) (texW atlasW : ℕ) : ℕ × ℕ × ℕ :=
  regions.foldl
    (fun cur r =>
      let wrapped :=
        if atlasW < cur.1 + texW then (0, cur.2.1 + cur.2.2, 0) else cur
      (wrapped.1 + r.bounds.width, wrapped.2.1,
        max wrapped.2.2 r.bounds.height))
    (0, 0, 0)

/-- `TextureAtlas::addTexture`: fail on a duplicate name; rescan the placed
regions for the cursor; fail when the texture does not fit below the
cursor's row (`currentY + height > atlas height`); otherwise copy the
texture pixel by pixel through the bounds-checked `setPixel` (silently
clipping anything outside the atlas), append `Region{bounds, name}` and
index it at the old region count. Returns the new atlas and the C++ bool. -/
def TextureAtlas.addTexture (atlas : TextureAtlas) (name : String)
    (texture : Image) : TextureAtlas × Bool :=
  if (atlas.regionMap.lookup name).isSome then (atlas, false)
  else
    let cur := packCursor atlas.regions texture.width atlas.atlasImage.width
    if atlas.atlasImage.height < cur.2.1 + texture.height then (atlas, false)
    else
      let newImg := (gridCoords 0 texture.width 0 texture.height).foldl
        (fun im xy => im.setPixel (cur.1 + xy.1) (cur.2.1 + xy.2)
          (texture.getPixel xy.1 xy.2)) atlas.atlasImage
      (⟨newImg,
        atlas.regions ++ [⟨⟨cur.1, cur.2.1, texture.width, texture.height⟩, name⟩],
        (name, atlas.regions.length) :: atlas.regionMap⟩, true)

/-- `TextureAtlas::clear`: empty `regions_` and `regionMap_`, then
`atlasImage_.create` with its current size and format — a same-size
`vector::resize`, which keeps every existing byte. -/
def TextureAtlas.clear (atlas : TextureAtlas) : TextureAtlas :=
  ⟨atlas.atlasImage.create atlas.atlasImage.width atlas.atlasImage.height
    atlas.atlasImage.format, [], []⟩

/-- The C1/C2 scenario: a 20 by 10 atlas receiving 10 by 10 textures. -/
def atlas20 : TextureAtlas := TextureAtlas.mkAtlas 20 10

/-- A 10 by 10 RGBA texture (contents irrelevant to the packing). -/
def tex10 : Image := ⟨10, 10, Format.RGBA, fun _ => 0⟩

def atlasA : TextureAtlas := (atlas20.addTexture "a" tex10).1

def atlasB : TextureAtlas := (atlasA.addTexture "b" tex10).1

def atlasC : TextureAtlas := (atlasB.addTexture "c" tex10).1

/-- A region flattened to (name, x, y, width, height) for comparison. -/
def regionSummary (r : Region) : String × ℕ × ℕ × ℕ × ℕ :=
  (r.name, r.bounds.x, r.bounds.y, r.bounds.width, r.bounds.height)

set_option maxRecDepth 100000 in
/-- C1 evaluated on the code: "a" and "b" land at (0,0) and (10,0) as the
claim says, but the third call also returns TRUE and appends region "c" at
x = 20: the rescan loop only wraps before accounting an existing region,
so the final cursor (20, 0) is never wrapped and the height check
`0 + 10 > 10` does not fire. The claim (and the spec) say the third call
returns false and leaves exactly the two regions. -/
theorem atlas_third_add_eval :
    (atlas20.addTexture "a" tex10).2 = true ∧
    atlasA.regions.map regionSummary = [("a", 0, 0, 10, 10)] ∧
    (atlasA.addTexture "b" tex10).2 = true ∧
    atlasB.regions.map regionSummary
      = [("a", 0, 0, 10, 10), ("b", 10, 0, 10, 10)] ∧
    (atlasB.addTexture "c" tex10).2 = true ∧
    atlasC.regions.map regionSummary
      = [("a", 0, 0, 10, 10), ("b", 10, 0, 10, 10), ("c", 20, 0, 10, 10)] := by
  refine ⟨rfl, rfl, rfl, rfl, rfl, rfl⟩

set_option maxRecDepth 100000 in
/-- C2 evaluated on the code: the atlas reached by the three `addTexture`
calls of the C1 scenario carries a region whose bounds leave the atlas
image's 20-pixel extent (x + width = 30 > 20), so the claimed containment
invariant does not hold on every reachable atlas. -/
theorem atlas_region_out_of_bounds_eval :
    atlasC.atlasImage.width = 20 ∧
    ∃ r ∈ atlasC.regions,
      atlasC.atlasImage.width < r.bounds.x + r.bounds.width := by
  refine ⟨rfl, ⟨⟨⟨20, 0, 10, 10⟩, "c"⟩, ?_, ?_⟩⟩
  · rw [show atlasC.regions
      = [⟨⟨0, 0, 10, 10⟩, "a"⟩, ⟨⟨10, 0, 10, 10⟩, "b"⟩, ⟨⟨20, 0, 10, 10⟩, "c"⟩]
      from rfl]
    exact List.mem_cons_of_mem _ (List.mem_cons_of_mem _ (List.mem_cons_self _ _))
  · rw [show atlasC.atlasImage.width = 20 from rfl]
    norm_num

/-- The C3 scenario: a 1 by 1 atlas holding a texture whose bytes are 5. -/
def atlas1 : TextureAtlas := TextureAtlas.mkAtlas 1 1

/-- A 1 by 1 RGBA texture whose bytes are all 5. -/
def tex1 : Image := ⟨1, 1, Format.RGBA, fun _ => 5⟩

def atlasP : TextureAtlas := (atlas1.addTexture "a" tex1).1

set_option maxRecDepth 100000 in
/-- C3 evaluated on the code: `clear()` empties the regions and the index,
but `Image::create` with unchanged dimensions and format performs a
same-size `vector::resize`, which zeroes nothing: the first byte of the
cleared atlas image still holds 5. The claim says every byte becomes 0. -/
theorem atlas_clear_keeps_bytes_eval :
    (atlas1.addTexture "a" tex1).2 = true ∧
    atlasP.clear.regions = [] ∧
    atlasP.clear.regionMap = [] ∧
    atlasP.clear.atlasImage.data 0 = 5 ∧
    ¬ atlasP.clear.atlasImage.data 0 = 0 := by
  refine ⟨rfl, rfl, rfl, rfl, ?_⟩
  rw [show atlasP.clear.atlasImage.data 0 = 5 from rfl]
  norm_num

end QuUI
